import Mathlib

/-!
Verification of `Tree_gen.py`, a documentation-generation utility that walks a
directory tree, extracts a C# type name and summary comment from each `.cs`
file, and renders a Markdown tree diagram.

Strings are modelled as `List Char` (Python strings are sequences of code
points).  The two regular expressions of the source are compiled into explicit
backtracking matchers whose search order mirrors the `re` module: `re.search`
scans start positions left to right; greedy stars try the longest whitespace
run first and backtrack downwards; the lazy group `(.*?)` tries the shortest
capture first.  `\s` and `str.strip` whitespace is modelled as the ASCII
whitespace set.
-/

namespace TreeGen

/-- The characters Python's `\s` / `str.strip` treat as whitespace (ASCII). -/
def isPySpace (c : Char) : Bool :=
  c = ' ' || c = '\t' || c = '\n' || c = '\r' || c = '\x0b' || c = '\x0c'

/-- String literal to character list. -/
def s2l (s : String) : List Char := s.data

/-- Match a literal: if `p` is a prefix of `s`, return the remainder. -/
def dropPref : List Char → List Char → Option (List Char)
  | [], s => some s
  | _ :: _, [] => none
  | p :: ps, c :: cs => if c = p then dropPref ps cs else none

/-- Length of the leading whitespace run (the most a `\s*` can consume). -/
def wsCount (s : List Char) : Nat := (s.takeWhile isPySpace).length

/-- First successful application of `f` along a list: the backtracking search
primitive.  The list fixes the exploration order. -/
def firstSome {α β : Type} (f : α → Option β) : List α → Option β
  | [] => none
  | a :: as =>
    match f a with
    | some b => some b
    | none => firstSome f as

/-- `[n, n-1, ..., 0]`: exploration order of a greedy `\s*` consuming at most
`n` characters. -/
def rangeDown : Nat → List Nat
  | 0 => [0]
  | n + 1 => (n + 1) :: rangeDown n

/-- `[n, n-1, ..., 1]`: exploration order of a greedy `\s+`. -/
def rangeDown1 : Nat → List Nat
  | 0 => []
  | n + 1 => (n + 1) :: rangeDown1 n

/-- `[0, 1, ..., n]`: exploration order of the lazy `(.*?)`. -/
def rangeUp (n : Nat) : List Nat := List.range (n + 1)

/-- `re.search(pattern, s)`: try the matcher at position 0, 1, ... and return
the first success (leftmost match). -/
def reSearch {β : Type} (m : List Char → Option β) : List Char → Option β
  | [] => m []
  | c :: cs =>
    match m (c :: cs) with
    | some b => some b
    | none => reSearch m cs

/-- `'/// <summary>'`, the literal opening the summary pattern. -/
def sumTag : List Char := s2l "/// <summary>"

/-- `'/// '`, the literal before the captured group. -/
def sumLead : List Char := s2l "/// "

/-- `'/// </summary>'`, the literal closing the summary pattern. -/
def sumClose : List Char := s2l "/// </summary>"

/-- The tail `\s*\n\s*/// </summary>` of the summary pattern, matched against
the text that follows the lazy capture. -/
def sumTailMatch (s : List Char) : Bool :=
  (firstSome (fun i3 =>
      match s.drop i3 with
      | '\n' :: s8 =>
        firstSome (fun i4 =>
            (dropPref sumClose (s8.drop i4)).map fun _ => ())
          (rangeDown (wsCount s8))
      | _ => none)
    (rangeDown (wsCount s))).isSome

/-- The lazy group `(.*?)` followed by the pattern tail: try the shortest
capture first, as the `re` engine does for a lazy quantifier. -/
def sumStage4 (s5 : List Char) : Option (List Char) :=
  firstSome (fun j =>
      if sumTailMatch (s5.drop j) then some (s5.take j) else none)
    (rangeUp s5.length)

/-- `\s*` then the literal `/// ` then the lazy capture. -/
def sumStage3 (s3 : List Char) : Option (List Char) :=
  firstSome (fun i2 => (dropPref sumLead (s3.drop i2)).bind sumStage4)
    (rangeDown (wsCount s3))

/-- `\s*` then the literal `\n` then the rest of the pattern. -/
def sumStage2 (s1 : List Char) : Option (List Char) :=
  firstSome (fun i1 =>
      match s1.drop i1 with
      | '\n' :: s3 => sumStage3 s3
      | _ => none)
    (rangeDown (wsCount s1))

/-- Matcher, at a fixed start position, for the source's summary regex
`/// <summary>\s*\n\s*/// (.*?)\s*\n\s*/// </summary>` (with `re.DOTALL`),
returning group 1.  Greedy `\s*`s are explored longest-first, the lazy
capture shortest-first, as the `re` engine does. -/
def matchSummaryAt (s : List Char) : Option (List Char) :=
  (dropPref sumTag s).bind sumStage2

/-- `str.strip()`: remove leading and trailing whitespace. -/
def stripPy (s : List Char) : List Char :=
  (s.dropWhile isPySpace).rdropWhile isPySpace

/-- `dropPref p s = some r → s = p ++ r` (stated early: `subSlashes` needs it
for termination). -/
theorem dropPref_some {p s r : List Char} (h : dropPref p s = some r) :
    s = p ++ r := by
  induction p generalizing s with
  | nil =>
    rw [dropPref] at h
    cases h
    rfl
  | cons c cs ih =>
    cases s with
    | nil => exact absurd h (by rw [dropPref]; exact Option.noConfusion)
    | cons d ds =>
      rw [dropPref] at h
      by_cases hd : d = c
      · rw [if_pos hd] at h
        rw [List.cons_append, ← ih h, hd]
      · rw [if_neg hd] at h
        cases h

/-- `re.sub(r'///\s*', '', s)`: at each position, if `///` matches, delete it
together with the (greedily matched) whitespace run that follows and continue
after the match; otherwise keep the character.  Scans left to right as
`re.sub` does. -/
def subSlashes : List Char → List Char
  | [] => []
  | c :: cs =>
    match hm : dropPref (s2l "///") (c :: cs) with
    | some rest => subSlashes (rest.dropWhile isPySpace)
    | none => c :: subSlashes cs
termination_by l => l.length
decreasing_by
  · have hlen : (c :: cs).length = (s2l "///").length + rest.length := by
      rw [dropPref_some hm, List.length_append]
    have h3 : (s2l "///").length = 3 := rfl
    have := (List.dropWhile_sublist (l := rest) isPySpace).length_le
    simp only [List.length_cons] at hlen
    simp only [List.length_cons]
    omega
  · simp only [List.length_cons]
    omega

/-- `s.replace('\n', ' ')`. -/
def replaceNl (s : List Char) : List Char :=
  s.map fun c => if c = '\n' then ' ' else c

/-- The summary half of `extract_class_info`: search for the summary block,
then strip, remove `///` comment leaders, collapse newlines to spaces and
truncate to 100 characters. -/
def extractSummary (content : List Char) : List Char :=
  match reSearch matchSummaryAt content with
  | none => []
  | some cap => (replaceNl (subSlashes (stripPy cap))).take 100

/-- `\w` on ASCII: letters, digits and underscore. -/
def isWordChar (c : Char) : Bool := c.isAlphanum || c = '_'

/-- The alternation `(class|interface|enum|struct)`, in the source's order. -/
def kws : List (List Char) := [s2l "class", s2l "interface", s2l "enum", s2l "struct"]

/-- Matcher, at a fixed position, for `(class|interface|enum|struct)\s+(\w+)`,
returning group 2. -/
def matchKwAt (s : List Char) : Option (List Char) :=
  firstSome (fun kw =>
      (dropPref kw s).bind fun s1 =>
        firstSome (fun i =>
            let w := (s1.drop i).takeWhile isWordChar
            if w.isEmpty then none else some w)
          (rangeDown1 (wsCount s1)))
    kws

/-- Matcher, at a fixed position, for
`public\s+(class|interface|enum|struct)\s+(\w+)`, returning group 2. -/
def matchPublicAt (s : List Char) : Option (List Char) :=
  (dropPref (s2l "public") s).bind fun s1 =>
    firstSome (fun i => matchKwAt (s1.drop i)) (rangeDown1 (wsCount s1))

/-- `re.search` of the public or the bare declaration pattern on one line. -/
def searchClass (pub : Bool) (line : List Char) : Option (List Char) :=
  reSearch (if pub then matchPublicAt else matchKwAt) line

/-- `content.split('\n')`. -/
def splitNl : List Char → List (List Char)
  | [] => [[]]
  | c :: cs =>
    if c = '\n' then [] :: splitNl cs
    else
      match splitNl cs with
      | l :: ls => (c :: l) :: ls
      | [] => [[c]]

/-- The name-search loop of `extract_class_info`: for each line in order, try
the `public` pattern, then (the guard `if not class_name` being vacuously
true there) the bare pattern; the first match of either ends the loop. -/
def classNameLoop : List (List Char) → List Char
  | [] => []
  | line :: rest =>
    match searchClass true line with
    | some nm => nm
    | none =>
      match searchClass false line with
      | some nm => nm
      | none => classNameLoop rest

/-- `extract_class_info`: on a successful read, the (class name, summary)
pair; on a read failure, an empty name and an error-bearing summary,
mirroring the `except` branch. -/
def extract_class_info (read : Except (List Char) (List Char)) :
    List Char × List Char :=
  match read with
  | .error e => ([], s2l "(读取失败: " ++ e ++ s2l ")")
  | .ok content => (classNameLoop (splitNl content), extractSummary content)

/-!
## The filesystem model and the tree walker

A directory's content is a list of named entries.  An entry is a regular file
(carrying the result of reading it), a directory (carrying the result of
listing it: `listErr = some e` models `os.listdir` raising with message `e`),
or something that is neither a regular file nor a directory.
-/

/-- A filesystem entry. -/
inductive Entry : Type where
  | file (read : Except (List Char) (List Char)) : Entry
  | dir (listErr : Option (List Char)) (children : List (List Char × Entry)) : Entry
  | other : Entry

/-- `os.path.isdir`. -/
def Entry.isDir : Entry → Bool
  | .dir _ _ => true
  | _ => false

/-- `os.path.isfile`. -/
def Entry.isFile : Entry → Bool
  | .file _ => true
  | _ => false

/-- Run the extractor on an entry (the walker only does this on files). -/
def extractOf : Entry → List Char × List Char
  | .file r => extract_class_info r
  | _ => ([], [])

/-- Python's `<=` on strings: lexicographic comparison by code point. -/
def strLe : List Char → List Char → Bool
  | [], _ => true
  | _ :: _, [] => false
  | a :: as, b :: bs => if a = b then strLe as bs else decide (a < b)

/-- The filter `not item.endswith('.meta') and item != '.git'`. -/
def keepItem (p : List Char × Entry) : Bool :=
  !((s2l ".meta").isSuffixOf p.1) && !(p.1 == s2l ".git")

/-- `sorted(os.listdir(...))` followed by the `.meta`/`.git` filter. -/
def listItems (children : List (List Char × Entry)) : List (List Char × Entry) :=
  (children.mergeSort fun a b => strLe a.1 b.1).filter keepItem

/-- The subdirectory partition of a listing. -/
def dirsOf (children : List (List Char × Entry)) : List (List Char × Entry) :=
  (listItems children).filter fun p => p.2.isDir

/-- The `.cs`-file partition of a listing. -/
def filesOf (children : List (List Char × Entry)) : List (List Char × Entry) :=
  (listItems children).filter fun p => p.2.isFile && (s2l ".cs").isSuffixOf p.1

/-- The terminal (last-child) connector `└── `. -/
def termConn : List Char := s2l "└── "

/-- The mid-child connector `├── `. -/
def midConn : List Char := s2l "├── "

/-- Connector of the `i`-th file: terminal exactly when the file is last and
the listing has no subdirectories (`is_last_item` of the source). -/
def fileConnector (i nfiles ndirs : Nat) : List Char :=
  if i == nfiles - 1 && ndirs == 0 then termConn else midConn

/-- Connector of a subdirectory (`is_last_dir` of the source). -/
def dirConnector (isLast : Bool) : List Char :=
  if isLast then termConn else midConn

/-- Continuation prefix added when recursing into a subdirectory. -/
def contPrefix (isLast : Bool) : List Char :=
  if isLast then s2l "    " else s2l "│   "

/-- The rendered line of one file: connector, filename, and (per the
`if class_name and summary` / `elif class_name` / `else` chain) arrow plus
name plus parenthesised summary, arrow plus name, or nothing. -/
def renderFileLine ( pfx : List Char) (nfiles ndirs i : Nat)
    (filename : List Char) (e : Entry) : List Char :=
  let connector := fileConnector i nfiles ndirs
  let info := extractOf e
  if !info.1.isEmpty && !info.2.isEmpty then
    pfx ++ connector ++ filename ++ s2l " ← " ++ info.1 ++ s2l " (" ++ info.2 ++ s2l ")"
  else if !info.1.isEmpty then
    pfx ++ connector ++ filename ++ s2l " ← " ++ info.1
  else
    pfx ++ connector ++ filename

/-- The `for i, filename in enumerate(files)` loop, `i` starting at the given
index. -/
def renderFiles ( pfx : List Char) (nfiles ndirs : Nat) :
    Nat → List (List Char × Entry) → List (List Char)
  | _, [] => []
  | i, (filename, e) :: rest =>
    renderFileLine pfx nfiles ndirs i filename e :: renderFiles pfx nfiles ndirs (i + 1) rest

theorem sizeOf_filter_le {α : Type} [SizeOf α] (p : α → Bool) (l : List α) :
    sizeOf (l.filter p) ≤ sizeOf l := by
  induction l with
  | nil => simp
  | cons a as ih =>
    simp only [List.filter_cons]
    split
    · simp only [List.cons.sizeOf_spec]; omega
    · simp only [List.cons.sizeOf_spec]; omega

theorem sizeOf_mergeSort (le : List Char × Entry → List Char × Entry → Bool)
    (l : List (List Char × Entry)) : sizeOf (l.mergeSort le) = sizeOf l :=
  (List.mergeSort_perm l le).sizeOf_eq_sizeOf

theorem sizeOf_listItems_le (children : List (List Char × Entry)) :
    sizeOf (listItems children) ≤ sizeOf children := by
  unfold listItems
  exact le_trans (sizeOf_filter_le _ _) (le_of_eq (sizeOf_mergeSort _ _))

theorem sizeOf_dirsOf_le (children : List (List Char × Entry)) :
    sizeOf (dirsOf children) ≤ sizeOf children :=
  le_trans (sizeOf_filter_le _ _) (sizeOf_listItems_le children)

mutual

/-- `scan_directory`: renders one directory level into `output_lines`.  The
first argument is the result of `os.listdir` on this directory (`some e`
models the `except` branch).  `is_last` is accepted, as in the source, but
never consulted. -/
def scan_directory (listErr : Option (List Char)) (children : List (List Char × Entry))
    ( pfx : List Char) (output_lines : List (List Char)) (is_last : Bool) :
    List (List Char) :=
  match listErr with
  | some e => output_lines ++ [pfx ++ s2l "[错误: " ++ e ++ s2l "]"]
  | none =>
    scanSubdirs (dirsOf children) pfx
      (output_lines ++
        renderFiles pfx (filesOf children).length (dirsOf children).length 0
          (filesOf children))
termination_by 2 * sizeOf children + 1
decreasing_by
  have := sizeOf_dirsOf_le children
  omega

/-- The `for i, dirname in enumerate(dirs)` loop: emit the directory header
line, recurse into the subdirectory with the extended prefix, continue with
the remaining subdirectories (`rest.isEmpty` is `i == len(dirs) - 1`). -/
def scanSubdirs (ds : List (List Char × Entry)) ( pfx : List Char)
    (output_lines : List (List Char)) : List (List Char) :=
  match ds with
  | [] => output_lines
  | (dirname, Entry.dir cErr ccs) :: rest =>
    scanSubdirs rest pfx
      (scan_directory cErr ccs (pfx ++ contPrefix rest.isEmpty)
        (output_lines ++ [pfx ++ dirConnector rest.isEmpty ++ dirname ++ [ '/' ]])
        rest.isEmpty)
  | (dirname, Entry.file _) :: rest =>
    scanSubdirs rest pfx
      (output_lines ++ [pfx ++ dirConnector rest.isEmpty ++ dirname ++ [ '/' ]])
  | (dirname, Entry.other) :: rest =>
    scanSubdirs rest pfx
      (output_lines ++ [pfx ++ dirConnector rest.isEmpty ++ dirname ++ [ '/' ]])
termination_by 2 * sizeOf ds
decreasing_by
  · simp only [List.cons.sizeOf_spec, Prod.mk.sizeOf_spec, Entry.dir.sizeOf_spec]
    omega
  · simp only [List.cons.sizeOf_spec, Prod.mk.sizeOf_spec, Entry.dir.sizeOf_spec]
    omega
  · simp only [List.cons.sizeOf_spec]
    omega
  · simp only [List.cons.sizeOf_spec]
    omega

end

/-- Python's `needle in hay` on strings: substring containment. -/
def containsSub (needle : List Char) : List Char → Bool
  | [] => needle.isPrefixOf []
  | c :: cs => needle.isPrefixOf (c :: cs) || containsSub needle cs

/-- Decimal representation of a count, as Python's `len` formats into an
f-string. -/
def natToChars (n : Nat) : List Char := (Nat.repr n).data

/-- The trailing count line: `**总计**: <N> 个 C# 文件` with `N` the number of
tree lines containing the substring `.cs`. -/
def countLine (tree_lines : List (List Char)) : List Char :=
  s2l "**总计**: " ++
    natToChars (tree_lines.countP fun l => containsSub (s2l ".cs") l) ++
    s2l " 个 C# 文件"

/-- `generate_markdown`: header, fenced tree, closing fence, count line.  The
root directory is given by its listing result. -/
def generate_markdown (listErr : Option (List Char))
    (children : List (List Char × Entry)) : List (List Char) :=
  let tree_lines := scan_directory listErr children [] [] true
  ([s2l "# Framework框架类文件树状结构", [], s2l "> 自动生成的类文件位置与功能说明", [],
      s2l "```", s2l "Assets/TradeGame/Scripts/Runtime/Framework/"] ++
    tree_lines ++ [s2l "```", []]) ++ [countLine tree_lines]

/-!
## Unfolding equations for the walker
-/

theorem scan_directory_err (e : List Char) (children : List (List Char × Entry))
    ( pfx : List Char) (out : List (List Char)) (b : Bool) :
    scan_directory (some e) children pfx out b =
      out ++ [pfx ++ s2l "[错误: " ++ e ++ s2l "]"] := by
  rw [scan_directory]

set_option maxHeartbeats 1000000 in
theorem scan_directory_ok (children : List (List Char × Entry)) ( pfx : List Char)
    (out : List (List Char)) (b : Bool) :
    scan_directory none children pfx out b =
      scanSubdirs (dirsOf children) pfx
        (out ++ renderFiles pfx (filesOf children).length (dirsOf children).length 0
          (filesOf children)) := by
  rw [scan_directory]

theorem scanSubdirs_nil ( pfx : List Char) (out : List (List Char)) :
    scanSubdirs [] pfx out = out := by
  rw [scanSubdirs]

set_option maxHeartbeats 1000000 in
theorem scanSubdirs_cons_dir (dirname : List Char) (cErr : Option (List Char))
    (ccs rest : List (List Char × Entry)) ( pfx : List Char) (out : List (List Char)) :
    scanSubdirs ((dirname, Entry.dir cErr ccs) :: rest) pfx out =
      scanSubdirs rest pfx
        (scan_directory cErr ccs (pfx ++ contPrefix rest.isEmpty)
          (out ++ [pfx ++ dirConnector rest.isEmpty ++ dirname ++ [ '/' ]])
          rest.isEmpty) := by
  rw [scanSubdirs]

set_option maxHeartbeats 1000000 in
theorem scanSubdirs_cons_file (dirname : List Char) (r : Except (List Char) (List Char))
    (rest : List (List Char × Entry)) ( pfx : List Char) (out : List (List Char)) :
    scanSubdirs ((dirname, Entry.file r) :: rest) pfx out =
      scanSubdirs rest pfx
        (out ++ [pfx ++ dirConnector rest.isEmpty ++ dirname ++ [ '/' ]]) := by
  rw [scanSubdirs]

set_option maxHeartbeats 1000000 in
theorem scanSubdirs_cons_other (dirname : List Char)
    (rest : List (List Char × Entry)) ( pfx : List Char) (out : List (List Char)) :
    scanSubdirs ((dirname, Entry.other) :: rest) pfx out =
      scanSubdirs rest pfx
        (out ++ [pfx ++ dirConnector rest.isEmpty ++ dirname ++ [ '/' ]]) := by
  rw [scanSubdirs]

/-!
## The walker only appends to `output_lines`
-/

theorem out_thread (n : Nat) :
    (∀ (listErr : Option (List Char)) (children : List (List Char × Entry))
        ( pfx : List Char) (out : List (List Char)) (b : Bool),
        2 * sizeOf children + 1 ≤ n →
        scan_directory listErr children pfx out b =
          out ++ scan_directory listErr children pfx [] b) ∧
    (∀ (ds : List (List Char × Entry)) ( pfx : List Char) (out : List (List Char)),
        2 * sizeOf ds ≤ n →
        scanSubdirs ds pfx out = out ++ scanSubdirs ds pfx []) := by
  induction n using Nat.strong_induction_on with
  | _ n ih =>
    constructor
    · intro listErr children pfx out b hn
      cases listErr with
      | some e => rw [scan_directory_err, scan_directory_err]; simp
      | none =>
        rw [scan_directory_ok, scan_directory_ok]
        have hm : 2 * sizeOf (dirsOf children) < n := by
          have := sizeOf_dirsOf_le children; omega
        have hsub := (ih _ hm).2
        rw [hsub (dirsOf children) pfx
          (out ++ renderFiles pfx (filesOf children).length (dirsOf children).length 0
            (filesOf children)) (le_refl _),
          hsub (dirsOf children) pfx
          ([] ++ renderFiles pfx (filesOf children).length (dirsOf children).length 0
            (filesOf children)) (le_refl _)]
        simp
    · intro ds pfx out hn
      match ds with
      | [] => rw [scanSubdirs_nil, scanSubdirs_nil]; simp
      | (dirname, e) :: rest =>
        have hsize : sizeOf rest < sizeOf ((dirname, e) :: rest) := by
          simp only [List.cons.sizeOf_spec]; omega
        have hrest : 2 * sizeOf rest < n := by omega
        have hr := (ih _ hrest).2
        cases e with
        | dir cErr ccs =>
          have hccs : 2 * sizeOf ccs + 1 < n := by
            simp only [List.cons.sizeOf_spec, Prod.mk.sizeOf_spec,
              Entry.dir.sizeOf_spec] at hn ⊢
            omega
          have hc := (ih _ hccs).1
          rw [scanSubdirs_cons_dir, scanSubdirs_cons_dir]
          conv_lhs => rw [hc cErr ccs _ _ _ (le_refl _)]
          conv_lhs => rw [hr rest pfx _ (le_refl _)]
          conv_rhs => rw [hc cErr ccs _ _ _ (le_refl _)]
          conv_rhs => rw [hr rest pfx _ (le_refl _)]
          simp
        | file r =>
          rw [scanSubdirs_cons_file, scanSubdirs_cons_file]
          conv_lhs => rw [hr rest pfx _ (le_refl _)]
          conv_rhs => rw [hr rest pfx _ (le_refl _)]
          simp
        | other =>
          rw [scanSubdirs_cons_other, scanSubdirs_cons_other]
          conv_lhs => rw [hr rest pfx _ (le_refl _)]
          conv_rhs => rw [hr rest pfx _ (le_refl _)]
          simp

/-- The walker returns `output_lines` plus freshly generated lines. -/
theorem scan_directory_append (listErr : Option (List Char))
    (children : List (List Char × Entry)) ( pfx : List Char)
    (out : List (List Char)) (b : Bool) :
    scan_directory listErr children pfx out b =
      out ++ scan_directory listErr children pfx [] b :=
  (out_thread (2 * sizeOf children + 1)).1 listErr children pfx out b (le_refl _)

/-- The subdirectory loop returns `output_lines` plus freshly generated
lines. -/
theorem scanSubdirs_append (ds : List (List Char × Entry)) ( pfx : List Char)
    (out : List (List Char)) :
    scanSubdirs ds pfx out = out ++ scanSubdirs ds pfx [] :=
  (out_thread (2 * sizeOf ds)).2 ds pfx out (le_refl _)

/-!
## Helper lemmas about `containsSub`
-/

theorem containsSub_of_isPrefixOf {x s : List Char} (h : x.isPrefixOf s = true) :
    containsSub x s = true := by
  cases s with
  | nil => simpa [containsSub] using h
  | cons c cs => simp [containsSub, h]

theorem containsSub_cons {x s : List Char} (c : Char) (h : containsSub x s = true) :
    containsSub x (c :: s) = true := by
  simp [containsSub, h]

theorem containsSub_append_middle (x u v : List Char) :
    containsSub x (u ++ x ++ v) = true := by
  induction u with
  | nil =>
    refine containsSub_of_isPrefixOf ?_
    simpa [List.isPrefixOf_iff_prefix] using List.prefix_append x v
  | cons c cs ih => simpa using containsSub_cons c ih

/-!
## C10: the `is_last` flag is never consulted
-/

/-- C10: the Tree Walker's output is independent of its `is_last` ("is this
node the last sibling") flag: for every listing result, children, prefix and
initial output sequence, calling the walker with the flag `true` and with it
`false` produces identical output. -/
theorem c10_is_last_unused (listErr : Option (List Char))
    (children : List (List Char × Entry)) ( pfx : List Char)
    (out : List (List Char)) :
    scan_directory listErr children pfx out true =
      scan_directory listErr children pfx out false := by
  cases listErr with
  | some e => rw [scan_directory_err, scan_directory_err]
  | none => rw [scan_directory_ok, scan_directory_ok]

/-!
## C6: a listing failure on a subdirectory
-/

/-- C6: when listing a subdirectory fails, exactly one bracketed error line
(the accumulated prefix followed by the bracketed message) is appended in
place of that subtree, the call returns normally, and the remaining sibling
subdirectories are still processed, independently of the failure. -/
theorem c6_listing_failure (dirname msg : List Char)
    (ccs rest : List (List Char × Entry)) ( pfx : List Char)
    (out : List (List Char)) :
    scanSubdirs ((dirname, Entry.dir (some msg) ccs) :: rest) pfx out =
      out ++ [pfx ++ dirConnector rest.isEmpty ++ dirname ++ [ '/' ],
          (pfx ++ contPrefix rest.isEmpty) ++ s2l "[错误: " ++ msg ++ s2l "]"] ++
        scanSubdirs rest pfx [] := by
  rw [scanSubdirs_cons_dir, scan_directory_err, scanSubdirs_append]
  simp

/-!
## C9: an empty extracted name renders the bare filename
-/

/-- C9: whenever the extracted class name is empty, the rendered line is
exactly prefix, connector and bare filename — the arrow and the parenthesised
summary are omitted even if the extractor returned a non-empty summary. -/
theorem c9_empty_name_bare_line ( pfx : List Char) (nfiles ndirs i : Nat)
    (filename : List Char) (e : Entry) (h : (extractOf e).1 = []) :
    renderFileLine pfx nfiles ndirs i filename e =
      pfx ++ fileConnector i nfiles ndirs ++ filename := by
  unfold renderFileLine
  simp [h]

/-- Witness for C9 at a concrete input whose extractor summary is non-empty
(an unreadable file): the line is still the bare filename. -/
theorem c9_witness :
    (extractOf (Entry.file (.error (s2l "boom")))).1 = [] ∧
    (extractOf (Entry.file (.error (s2l "boom")))).2 ≠ [] ∧
    renderFileLine [] 1 0 0 (s2l "B.cs") (Entry.file (.error (s2l "boom"))) =
      [] ++ fileConnector 0 1 0 ++ s2l "B.cs" :=
  ⟨rfl, by decide, c9_empty_name_bare_line [] 1 0 0 (s2l "B.cs") _ rfl⟩

/-!
## C2: a file whose read fails
-/

/-- C2 counterexample: for a file whose read fails, the rendered line does
not contain the diagnostic text — the claim that "the diagnostic text appears
in that file's rendered output line" is false.  Here the read of `Bad.cs`
fails with message `boom`; the extractor does embed `boom` in its summary,
but the rendered tree is just `└── Bad.cs`. -/
theorem c2_counterexample :
    scan_directory none [(s2l "Bad.cs", Entry.file (.error (s2l "boom")))] [] [] true =
      [s2l "└── Bad.cs"] ∧
    (extract_class_info (.error (s2l "boom"))).2 = s2l "(读取失败: boom)" ∧
    containsSub (s2l "boom") (s2l "└── Bad.cs") = false := by
  have hd : dirsOf [(s2l "Bad.cs", Entry.file (.error (s2l "boom")))] = [] := by
    simp only [dirsOf, listItems, List.mergeSort_singleton]
    rfl
  have hf : filesOf [(s2l "Bad.cs", Entry.file (.error (s2l "boom")))] =
      [(s2l "Bad.cs", Entry.file (.error (s2l "boom")))] := by
    simp only [filesOf, listItems, List.mergeSort_singleton]
    rfl
  refine ⟨?_, by decide, by decide⟩
  rw [scan_directory_ok, hd, hf, scanSubdirs_nil]
  decide

/-- C2 amended: a failed read yields an empty name together with a summary
that embeds the error message, and the walk continues with the remaining
files; however the diagnostic is not rendered — since the name is empty, the
file's output line is just prefix, connector and bare filename. -/
theorem c2_amended (e : List Char) ( pfx : List Char) (nfiles ndirs i : Nat)
    (filename : List Char) (rest : List (List Char × Entry)) :
    extract_class_info (.error e) = ([], s2l "(读取失败: " ++ e ++ s2l ")") ∧
    containsSub e (extract_class_info (.error e)).2 = true ∧
    renderFileLine pfx nfiles ndirs i filename (Entry.file (.error e)) =
      pfx ++ fileConnector i nfiles ndirs ++ filename ∧
    renderFiles pfx nfiles ndirs i ((filename, Entry.file (.error e)) :: rest) =
      (pfx ++ fileConnector i nfiles ndirs ++ filename) ::
        renderFiles pfx nfiles ndirs (i + 1) rest := by
  have hline : renderFileLine pfx nfiles ndirs i filename (Entry.file (.error e)) =
      pfx ++ fileConnector i nfiles ndirs ++ filename := by
    unfold renderFileLine
    simp [extractOf, extract_class_info]
  refine ⟨rfl, ?_, hline, ?_⟩
  · exact containsSub_append_middle e (s2l "(读取失败: ") (s2l ")")
  · rw [renderFiles, hline]

/-!
## C5: the trailing count line counts lines containing `.cs`
-/

/-- C5: the count line of the generated document reports exactly the number
of rendered tree lines whose text contains the substring `.cs` — lines, not
files: the concrete tree consisting of one (empty) subdirectory named
`Sub.cs` contains no file entry at all, yet its count line reports 1. -/
theorem c5_count_line (listErr : Option (List Char))
    (children : List (List Char × Entry)) :
    (generate_markdown listErr children).getLast? =
      some (s2l "**总计**: " ++
        natToChars ((scan_directory listErr children [] [] true).countP
          fun l => containsSub (s2l ".cs") l) ++ s2l " 个 C# 文件") ∧
    scan_directory none [(s2l "Sub.cs", Entry.dir none [])] [] [] true =
      [s2l "└── Sub.cs/"] ∧
    (generate_markdown none [(s2l "Sub.cs", Entry.dir none [])]).getLast? =
      some (s2l "**总计**: 1 个 C# 文件") ∧
    ([(s2l "Sub.cs", Entry.dir none [])].all fun p => !p.2.isFile) = true := by
  have hlast : ∀ le cs, (generate_markdown le cs).getLast? =
      some (countLine (scan_directory le cs [] [] true)) := by
    intro le cs
    unfold generate_markdown
    exact List.getLast?_concat _
  have hdemo : scan_directory none [(s2l "Sub.cs", Entry.dir none [])] [] [] true =
      [s2l "└── Sub.cs/"] := by
    have hd : dirsOf [(s2l "Sub.cs", Entry.dir none [])] =
        [(s2l "Sub.cs", Entry.dir none [])] := by
      simp only [dirsOf, listItems, List.mergeSort_singleton]
      rfl
    have hf : filesOf [(s2l "Sub.cs", Entry.dir none [])] = [] := by
      simp only [filesOf, listItems, List.mergeSort_singleton]
      rfl
    have hinner : scan_directory none ([] : List (List Char × Entry))
        (s2l "    ") [dirConnector true ++ s2l "Sub.cs" ++ [ '/' ]] true =
        [dirConnector true ++ s2l "Sub.cs" ++ [ '/' ]] := by
      rw [scan_directory_ok]
      have hd0 : dirsOf ([] : List (List Char × Entry)) = [] := by
        simp [dirsOf, listItems]
      have hf0 : filesOf ([] : List (List Char × Entry)) = [] := by
        simp [filesOf, listItems]
      rw [hd0, hf0, scanSubdirs_nil]
      simp [renderFiles]
    rw [scan_directory_ok, hd, hf]
    simp only [renderFiles, List.append_nil]
    rw [scanSubdirs_cons_dir]
    simp only [List.isEmpty_nil, List.nil_append]
    have : contPrefix true = s2l "    " := by decide
    rw [this, hinner, scanSubdirs_nil]
    decide
  refine ⟨hlast listErr children, hdemo, ?_, by decide⟩
  rw [hlast, hdemo]
  decide

/-!
## C4: sorting, and files before subdirectories
-/

theorem strLe_total (a : List Char) : ∀ b, strLe a b || strLe b a := by
  induction a with
  | nil => intro b; simp [strLe]
  | cons x xs ih =>
    intro b
    cases b with
    | nil => simp [strLe]
    | cons y ys =>
      by_cases h : x = y
      · subst h
        simpa [strLe] using ih ys
      · rcases lt_or_gt_of_ne h with hlt | hgt
        · simp [strLe, h, hlt]
        · simp [strLe, h, Ne.symm h, hgt, le_of_lt hgt]

theorem strLe_trans (a : List Char) :
    ∀ b c, strLe a b → strLe b c → strLe a c := by
  induction a with
  | nil => intro b c _ _; simp [strLe]
  | cons x xs ih =>
    intro b c h1 h2
    cases b with
    | nil => simp [strLe] at h1
    | cons y ys =>
      cases c with
      | nil => simp [strLe] at h2
      | cons z zs =>
        by_cases hxy : x = y <;> by_cases hyz : y = z
        · subst hxy; subst hyz
          simp only [strLe, if_pos rfl] at h1 h2 ⊢
          exact ih ys zs h1 h2
        · subst hxy
          simp only [strLe, if_pos rfl, if_neg hyz] at h2 ⊢
          exact h2
        · subst hyz
          simp only [strLe, if_neg hxy] at h1 ⊢
          exact h1
        · simp only [strLe, if_neg hxy, if_neg hyz, decide_eq_true_eq] at h1 h2
          have hxz : x < z := lt_trans h1 h2
          simp [strLe, ne_of_lt hxz, hxz]

theorem sorted_listItems (children : List (List Char × Entry)) :
    (listItems children).Pairwise fun a b => strLe a.1 b.1 := by
  unfold listItems
  refine List.Pairwise.filter _ ?_
  exact List.sorted_mergeSort
    (fun a b c h1 h2 => strLe_trans a.1 b.1 c.1 h1 h2)
    (fun a b => strLe_total a.1 b.1) children

theorem sorted_filesOf (children : List (List Char × Entry)) :
    (filesOf children).Pairwise fun a b => strLe a.1 b.1 :=
  List.Pairwise.filter _ (sorted_listItems children)

theorem sorted_dirsOf (children : List (List Char × Entry)) :
    (dirsOf children).Pairwise fun a b => strLe a.1 b.1 :=
  List.Pairwise.filter _ (sorted_listItems children)

/-- C4: at every level the walker emits, first, one line per `.cs` file, then
the subdirectory blocks; the file partition and the subdirectory partition
are each sorted by the code-point string order (Python's `sorted`).  Because
every directory level is rendered by the same `scan_directory`, this holds at
every level of the walk. -/
theorem c4_sorted_files_before_dirs (children : List (List Char × Entry))
    ( pfx : List Char) (out : List (List Char)) (b : Bool) :
    scan_directory none children pfx out b =
      out ++
        renderFiles pfx (filesOf children).length (dirsOf children).length 0
          (filesOf children) ++
        scanSubdirs (dirsOf children) pfx [] ∧
    ((filesOf children).map fun p => p.1).Pairwise (fun a b => strLe a b) ∧
    ((dirsOf children).map fun p => p.1).Pairwise (fun a b => strLe a b) := by
  refine ⟨?_, ?_, ?_⟩
  · rw [scan_directory_ok, scanSubdirs_append]
  · rw [List.pairwise_map]
    exact sorted_filesOf children
  · rw [List.pairwise_map]
    exact sorted_dirsOf children

/-!
## C3: which entry receives the terminal connector
-/

/-- The header lines the subdirectory loop emits, one per subdirectory, with
the connector the loop chooses (`rest.isEmpty` is `i == len(dirs) - 1`). -/
def dirHeaderLines ( pfx : List Char) : List (List Char × Entry) → List (List Char)
  | [] => []
  | (dirname, _) :: rest =>
    (pfx ++ dirConnector rest.isEmpty ++ dirname ++ [ '/' ]) :: dirHeaderLines pfx rest

theorem dirHeaderLines_sublist ( pfx : List Char) (ds : List (List Char × Entry)) :
    (dirHeaderLines pfx ds).Sublist (scanSubdirs ds pfx []) := by
  induction ds with
  | nil => simp [dirHeaderLines, scanSubdirs_nil]
  | cons hd rest ih =>
    obtain ⟨dirname, e⟩ := hd
    cases e with
    | dir cErr ccs =>
      rw [scanSubdirs_cons_dir, scanSubdirs_append, scan_directory_append]
      simp only [dirHeaderLines, List.nil_append, List.cons_append, List.append_assoc]
      exact (ih.trans (List.sublist_append_right _ _)).cons₂ _
    | file r =>
      rw [scanSubdirs_cons_file, scanSubdirs_append]
      simp only [dirHeaderLines, List.nil_append, List.cons_append]
      exact ih.cons₂ _
    | other =>
      rw [scanSubdirs_cons_other, scanSubdirs_append]
      simp only [dirHeaderLines, List.nil_append, List.cons_append]
      exact ih.cons₂ _

theorem dirHeaderLines_getElem? ( pfx : List Char) :
    ∀ (ds : List (List Char × Entry)) (j : Nat) (p : List Char × Entry),
      ds[j]? = some p →
      (dirHeaderLines pfx ds)[j]? =
        some (pfx ++ dirConnector (decide (j = ds.length - 1)) ++ p.1 ++ [ '/' ]) := by
  intro ds
  induction ds with
  | nil => intro j p h; simp at h
  | cons hd rest ih =>
    intro j p h
    obtain ⟨dirname, e⟩ := hd
    cases j with
    | zero =>
      simp only [List.getElem?_cons_zero, Option.some.injEq] at h
      subst h
      cases rest with
      | nil => simp [dirHeaderLines]
      | cons r rs => simp [dirHeaderLines]
    | succ j =>
      simp only [List.getElem?_cons_succ] at h
      have hj : j < rest.length := by
        by_contra hc
        rw [List.getElem?_eq_none (by omega)] at h
        exact Option.noConfusion h
      have hdec : decide (j = rest.length - 1) = decide (j + 1 = rest.length + 1 - 1) :=
        decide_eq_decide.mpr (by omega)
      simp only [dirHeaderLines, List.getElem?_cons_succ, List.length_cons]
      rw [ih j p h, hdec]

theorem renderFiles_getElem? ( pfx : List Char) (nf nd : Nat) :
    ∀ (fs : List (List Char × Entry)) (k i : Nat) (p : List Char × Entry),
      fs[i]? = some p →
      (renderFiles pfx nf nd k fs)[i]? =
        some (renderFileLine pfx nf nd (k + i) p.1 p.2) := by
  intro fs
  induction fs with
  | nil => intro k i p h; simp at h
  | cons hd rest ih =>
    intro k i p h
    obtain ⟨fn, e⟩ := hd
    cases i with
    | zero =>
      simp only [List.getElem?_cons_zero, Option.some.injEq] at h
      subst h
      simp [renderFiles]
    | succ i =>
      simp only [List.getElem?_cons_succ] at h
      simp only [renderFiles, List.getElem?_cons_succ]
      rw [show k + (i + 1) = (k + 1) + i from by omega]
      exact ih (k + 1) i p h

theorem renderFileLine_shape ( pfx : List Char) (nf nd i : Nat)
    (fn : List Char) (e : Entry) :
    ∃ tail, renderFileLine pfx nf nd i fn e =
      pfx ++ fileConnector i nf nd ++ (fn ++ tail) := by
  simp only [renderFileLine]
  split
  · exact ⟨s2l " ← " ++ (extractOf e).1 ++ s2l " (" ++ (extractOf e).2 ++ s2l ")", by simp⟩
  · split
    · exact ⟨s2l " ← " ++ (extractOf e).1, by simp⟩
    · exact ⟨[], by simp⟩

theorem fileConnector_eq_term_iff (i nf nd : Nat) :
    fileConnector i nf nd = termConn ↔ (i = nf - 1 ∧ nd = 0) := by
  unfold fileConnector
  split
  · rename_i h
    simp only [Bool.and_eq_true, beq_iff_eq] at h
    simp [h]
  · rename_i h
    simp only [Bool.and_eq_true, beq_iff_eq, not_and] at h
    constructor
    · intro hc
      exact absurd hc (by decide)
    · intro ⟨h1, h2⟩
      exact absurd h2 (h h1)

theorem dirConnector_eq_term_iff (b : Bool) :
    dirConnector b = termConn ↔ b = true := by
  cases b <;> simp [dirConnector] <;> decide

/-- C3: the connector policy of one listing.  A file line carries the
terminal connector exactly when the file is the last of the (sorted) file
partition and the listing has no subdirectory at all; otherwise it carries
the mid connector.  The subdirectory header lines appear, in order, inside
the loop's output, and the `j`-th carries the terminal connector exactly when
it is the last subdirectory. -/
theorem c3_connectors (children : List (List Char × Entry)) ( pfx : List Char) :
    (∀ (i : Nat) (p : List Char × Entry), (filesOf children)[i]? = some p →
      ∃ tail,
        (renderFiles pfx (filesOf children).length (dirsOf children).length 0
            (filesOf children))[i]? =
          some (pfx ++ fileConnector i (filesOf children).length (dirsOf children).length
            ++ (p.1 ++ tail))) ∧
    (∀ i : Nat,
      (fileConnector i (filesOf children).length (dirsOf children).length = termConn ↔
        (i = (filesOf children).length - 1 ∧ dirsOf children = [])) ∧
      (fileConnector i (filesOf children).length (dirsOf children).length = termConn ∨
        fileConnector i (filesOf children).length (dirsOf children).length = midConn)) ∧
    (dirHeaderLines pfx (dirsOf children)).Sublist (scanSubdirs (dirsOf children) pfx []) ∧
    (∀ (j : Nat) (p : List Char × Entry), (dirsOf children)[j]? = some p →
      (dirHeaderLines pfx (dirsOf children))[j]? =
        some (pfx ++ dirConnector (decide (j = (dirsOf children).length - 1)) ++
          p.1 ++ [ '/' ]) ∧
      (dirConnector (decide (j = (dirsOf children).length - 1)) = termConn ↔
        j = (dirsOf children).length - 1)) := by
  refine ⟨?_, ?_, dirHeaderLines_sublist pfx _, ?_⟩
  · intro i p h
    obtain ⟨tail, ht⟩ := renderFileLine_shape pfx (filesOf children).length
      (dirsOf children).length i p.1 p.2
    refine ⟨tail, ?_⟩
    rw [renderFiles_getElem? pfx _ _ (filesOf children) 0 i p h]
    simp [ht]
  · intro i
    constructor
    · rw [fileConnector_eq_term_iff]
      rw [List.length_eq_zero]
    · unfold fileConnector
      split
      · exact Or.inl rfl
      · exact Or.inr rfl
  · intro j p h
    refine ⟨dirHeaderLines_getElem? pfx _ j p h, ?_⟩
    rw [dirConnector_eq_term_iff]
    simp

/-- The demonstration listing for C3's witness: one `.cs` file and one
subdirectory, so the file must take the mid connector. -/
def c3demo : List (List Char × Entry) :=
  [(s2l "A.cs", Entry.file (.ok (s2l "x"))), (s2l "Sub", Entry.dir none [])]

theorem c3demo_items : listItems c3demo = c3demo := by
  unfold listItems
  rw [List.mergeSort_of_sorted (by decide)]
  rfl

/-- Witness for C3: on `c3demo` the single file gets the mid connector (a
subdirectory exists), the subdirectory gets the terminal connector, and with
no subdirectory the same file index would get the terminal connector. -/
theorem c3_witness :
    (filesOf c3demo)[0]? = some (s2l "A.cs", Entry.file (.ok (s2l "x"))) ∧
    (∃ tail,
      (renderFiles [] (filesOf c3demo).length (dirsOf c3demo).length 0
          (filesOf c3demo))[0]? =
        some ([] ++ fileConnector 0 (filesOf c3demo).length (dirsOf c3demo).length
          ++ (s2l "A.cs" ++ tail))) ∧
    fileConnector 0 (filesOf c3demo).length (dirsOf c3demo).length = midConn ∧
    (dirHeaderLines [] (dirsOf c3demo))[0]? =
      some ([] ++ dirConnector (decide ((0 : Nat) = (dirsOf c3demo).length - 1)) ++
        s2l "Sub" ++ [ '/' ]) ∧
    dirConnector (decide ((0 : Nat) = (dirsOf c3demo).length - 1)) = termConn ∧
    fileConnector 0 1 0 = termConn := by
  have hfiles : filesOf c3demo = [(s2l "A.cs", Entry.file (.ok (s2l "x")))] := by
    unfold filesOf
    rw [c3demo_items]
    rfl
  have hdirs : dirsOf c3demo = [(s2l "Sub", Entry.dir none [])] := by
    unfold dirsOf
    rw [c3demo_items]
    rfl
  have h := c3_connectors c3demo []
  have h0 : (filesOf c3demo)[0]? = some (s2l "A.cs", Entry.file (.ok (s2l "x"))) := by
    rw [hfiles]; rfl
  have hd0 : (dirsOf c3demo)[0]? = some (s2l "Sub", Entry.dir none []) := by
    rw [hdirs]; rfl
  refine ⟨h0, h.1 0 _ h0, ?_, (h.2.2.2 0 _ hd0).1, ?_, by decide⟩
  · rcases (h.2.1 0).2 with hc | hc
    · rw [(h.2.1 0).1] at hc
      rw [hdirs] at hc
      exact absurd hc.2 (by simp)
    · exact hc
  · rw [(h.2.2.2 0 _ hd0).2]
    rw [hdirs]
    simp

/-!
## C1: which declaration's identifier is reported
-/

/-- A file whose first line holds a non-public declaration `A` and whose
second line holds a public declaration `B`. -/
def c1content : List Char := s2l "class A\npublic class B"

/-- C1 counterexample: the name search does not give priority to a public
declaration that appears on a later line.  On `c1content` a line matching the
public pattern exists, yet the extractor reports `A`, the identifier of the
earlier non-public declaration, not `B`. -/
theorem c1_counterexample :
    (extract_class_info (.ok c1content)).1 = s2l "A" ∧
    (∃ l, l ∈ splitNl c1content ∧ searchClass true l ≠ none) ∧
    (extract_class_info (.ok c1content)).1 ≠ s2l "B" := by
  refine ⟨by decide, ⟨s2l "public class B", by decide, by decide⟩, by decide⟩

/-- C1 amended: the scan stops at the first line matching either pattern and
returns that line's identifier, trying the public pattern first on that line
only; a non-public identifier is returned whenever the first matching line
has no public match, even if a later line matches the public pattern. -/
theorem c1_amended (content : List Char) (pre : List (List Char))
    (line : List Char) (post : List (List Char))
    (hsplit : splitNl content = pre ++ line :: post)
    (hpre : ∀ l ∈ pre, searchClass true l = none ∧ searchClass false l = none)
    (hline : searchClass true line ≠ none ∨ searchClass false line ≠ none) :
    (extract_class_info (.ok content)).1 =
      match searchClass true line with
      | some nm => nm
      | none => (searchClass false line).getD [] := by
  show classNameLoop (splitNl content) = _
  rw [hsplit]
  clear hsplit
  induction pre with
  | nil =>
    simp only [List.nil_append, classNameLoop]
    cases h : searchClass true line with
    | some nm => simp
    | none =>
      cases h2 : searchClass false line with
      | some nm => simp
      | none =>
        rcases hline with hc | hc
        · exact absurd h hc
        · exact absurd h2 hc
  | cons hd tl ih =>
    have hh := hpre hd (List.mem_cons_self hd tl)
    simp only [List.cons_append, classNameLoop, hh.1, hh.2]
    exact ih fun l hl => hpre l (List.mem_cons_of_mem hd hl)

/-- Witness for C1's amended form, at `c1content`: the first line `class A`
matches only the bare pattern, so `A` is returned. -/
theorem c1_witness :
    splitNl c1content = [] ++ s2l "class A" :: [s2l "public class B"] ∧
    searchClass false (s2l "class A") ≠ none ∧
    (extract_class_info (.ok c1content)).1 = s2l "A" := by
  refine ⟨by decide, by decide, ?_⟩
  have h := c1_amended c1content [] (s2l "class A") [s2l "public class B"]
    (by decide) (by simp) (Or.inr (by decide))
  rw [h]
  decide

/-!
## C8: excluded entries never influence the output

The key combinatorial fact is that a stable merge sort commutes with
`filter`.
-/

theorem takeWhile_append_eq_left {α : Type} (q : α → Bool) (u v : List α)
    (hu : ∀ x ∈ u, q x = true) (hv : ∀ x ∈ v, q x = false) :
    (u ++ v).takeWhile q = u := by
  induction u with
  | nil =>
    simp only [List.nil_append]
    cases v with
    | nil => rfl
    | cons c cs => simp [List.takeWhile_cons, hv c (List.mem_cons_self c cs)]
  | cons a as ih =>
    simp [List.takeWhile_cons, hu a (List.mem_cons_self a as),
      ih fun x hx => hu x (List.mem_cons_of_mem a hx)]

theorem filter_mergeSort_comm {α : Type} (le : α → α → Bool)
    (htrans : ∀ a b c, le a b → le b c → le a c)
    (htotal : ∀ a b, le a b || le b a) (p : α → Bool) :
    ∀ l : List α, (l.mergeSort le).filter p = (l.filter p).mergeSort le := by
  intro l
  induction l with
  | nil => simp
  | cons a l ih =>
    obtain ⟨l₁, l₂, h1, h2, h3⟩ := List.mergeSort_cons htrans htotal a l
    have hs : (l₁ ++ a :: l₂).Pairwise (fun x y => le x y) :=
      h1 ▸ List.sorted_mergeSort htrans htotal (a :: l)
    have ha2 : ∀ c ∈ l₂, le a c := by
      have hpa := (List.pairwise_append.mp hs).2.1
      exact fun c hc => (List.pairwise_cons.mp hpa).1 c hc
    have hq1 : ∀ b ∈ l₁, (fun b => !le a b) b = true := fun b hb => by
      simpa using h3 b hb
    have hq2 : ∀ c ∈ l₂, (fun b => !le a b) c = false := fun c hc => by
      simp [ha2 c hc]
    by_cases hp : p a = true
    · obtain ⟨m₁, m₂, g1, g2, g3⟩ := List.mergeSort_cons htrans htotal a (l.filter p)
      have gs : (m₁ ++ a :: m₂).Pairwise (fun x y => le x y) :=
        g1 ▸ List.sorted_mergeSort htrans htotal (a :: l.filter p)
      have ga2 : ∀ c ∈ m₂, le a c := by
        have hpa := (List.pairwise_append.mp gs).2.1
        exact fun c hc => (List.pairwise_cons.mp hpa).1 c hc
      have gq1 : ∀ b ∈ m₁, (fun b => !le a b) b = true := fun b hb => by
        simpa using g3 b hb
      have gq2 : ∀ c ∈ m₂, (fun b => !le a b) c = false := fun c hc => by
        simp [ga2 c hc]
      have hlist : m₁ ++ m₂ = l₁.filter p ++ l₂.filter p := by
        calc m₁ ++ m₂ = (l.filter p).mergeSort le := g2.symm
          _ = (l.mergeSort le).filter p := ih.symm
          _ = (l₁ ++ l₂).filter p := by rw [h2]
          _ = l₁.filter p ++ l₂.filter p := List.filter_append _ _
      have hm₁ : m₁ = l₁.filter p := by
        have t1 : (m₁ ++ m₂).takeWhile (fun b => !le a b) = m₁ :=
          takeWhile_append_eq_left _ m₁ m₂ gq1 gq2
        have t2 : (l₁.filter p ++ l₂.filter p).takeWhile (fun b => !le a b) =
            l₁.filter p :=
          takeWhile_append_eq_left _ _ _
            (fun x hx => hq1 x (List.mem_of_mem_filter hx))
            (fun x hx => hq2 x (List.mem_of_mem_filter hx))
        rw [← t1, hlist, t2]
      have hm₂ : m₂ = l₂.filter p := by
        have hl := hlist
        rw [hm₁] at hl
        exact List.append_cancel_left hl
      show ((a :: l).mergeSort le).filter p = ((a :: l).filter p).mergeSort le
      rw [h1, List.filter_append, List.filter_cons_of_pos hp,
        List.filter_cons_of_pos hp, g1, hm₁, hm₂]
    · have hp' : p a = false := by simpa using hp
      show ((a :: l).mergeSort le).filter p = ((a :: l).filter p).mergeSort le
      rw [h1, List.filter_append, List.filter_cons_of_neg (by simp [hp']),
        List.filter_cons_of_neg (by simp [hp']), ← ih, h2, List.filter_append]

mutual

/-- Remove, at every depth, the entries the walker's filter excludes
(`.meta`-suffixed names and `.git`). -/
def deepFilterEntry : Entry → Entry
  | .file r => .file r
  | .other => .other
  | .dir err cs => .dir err (deepFilterList cs)
termination_by e => sizeOf e
decreasing_by
  simp only [Entry.dir.sizeOf_spec]; omega

/-- `deepFilterEntry` on every kept child of a listing. -/
def deepFilterList : List (List Char × Entry) → List (List Char × Entry)
  | [] => []
  | (n, e) :: rest =>
    if keepItem (n, e) then (n, deepFilterEntry e) :: deepFilterList rest
    else deepFilterList rest
termination_by l => sizeOf l
decreasing_by
  · simp only [List.cons.sizeOf_spec, Prod.mk.sizeOf_spec]; omega
  · simp only [List.cons.sizeOf_spec]; omega
  · simp only [List.cons.sizeOf_spec]; omega

end

mutual

/-- No entry of the tree, at any depth, is a `.meta` sidecar or `.git`. -/
def entryClean : Entry → Bool
  | .file _ => true
  | .other => true
  | .dir _ cs => listClean cs
termination_by e => sizeOf e
decreasing_by
  simp only [Entry.dir.sizeOf_spec]; omega

/-- `entryClean` over a listing. -/
def listClean : List (List Char × Entry) → Bool
  | [] => true
  | (n, e) :: rest => keepItem (n, e) && entryClean e && listClean rest
termination_by l => sizeOf l
decreasing_by
  · simp only [List.cons.sizeOf_spec, Prod.mk.sizeOf_spec]; omega
  · simp only [List.cons.sizeOf_spec]; omega

end

/-- The mapped form of one child under the deep filter. -/
def deepFilterPair (p : List Char × Entry) : List Char × Entry :=
  (p.1, deepFilterEntry p.2)

theorem deepFilterList_eq (cs : List (List Char × Entry)) :
    deepFilterList cs = (cs.filter keepItem).map deepFilterPair := by
  induction cs with
  | nil => rw [deepFilterList]; rfl
  | cons hd rest ih =>
    obtain ⟨n, e⟩ := hd
    rw [deepFilterList]
    by_cases h : keepItem (n, e) = true
    · rw [if_pos h, List.filter_cons_of_pos h, List.map_cons, ih]
      rfl
    · rw [if_neg h, List.filter_cons_of_neg (by simpa using h), ih]

theorem keepItem_deepFilterPair (p : List Char × Entry) :
    keepItem (deepFilterPair p) = keepItem p := rfl

theorem isDir_deepFilterEntry (e : Entry) :
    (deepFilterEntry e).isDir = e.isDir := by
  cases e <;> rw [deepFilterEntry] <;> rfl

theorem isFile_deepFilterEntry (e : Entry) :
    (deepFilterEntry e).isFile = e.isFile := by
  cases e <;> rw [deepFilterEntry] <;> rfl

theorem extractOf_deepFilterEntry (e : Entry) :
    extractOf (deepFilterEntry e) = extractOf e := by
  cases e <;> rw [deepFilterEntry] <;> rfl

theorem pairLe_strLe_trans :
    ∀ a b c : List Char × Entry, strLe a.1 b.1 → strLe b.1 c.1 → strLe a.1 c.1 :=
  fun a b c h1 h2 => strLe_trans a.1 b.1 c.1 h1 h2

theorem pairLe_strLe_total :
    ∀ a b : List Char × Entry, strLe a.1 b.1 || strLe b.1 a.1 :=
  fun a b => strLe_total a.1 b.1

theorem listItems_deepFilterList (cs : List (List Char × Entry)) :
    listItems (deepFilterList cs) = (listItems cs).map deepFilterPair := by
  have hmap : ∀ a ∈ cs.filter keepItem, ∀ b ∈ cs.filter keepItem,
      (fun x y : List Char × Entry => strLe x.1 y.1) a b =
        (fun x y : List Char × Entry => strLe x.1 y.1)
          (deepFilterPair a) (deepFilterPair b) :=
    fun _ _ _ _ => rfl
  calc listItems (deepFilterList cs)
      = (((cs.filter keepItem).map deepFilterPair).mergeSort
          fun a b => strLe a.1 b.1).filter keepItem := by
        rw [listItems, deepFilterList_eq]
    _ = (((cs.filter keepItem).mergeSort fun a b => strLe a.1 b.1).map
          deepFilterPair).filter keepItem := by
        have hms := @List.map_mergeSort (List Char × Entry) (List Char × Entry)
          (fun a b => strLe a.1 b.1) (fun a b => strLe a.1 b.1) deepFilterPair
          (cs.filter keepItem) hmap
        rw [← hms]
    _ = (((cs.filter keepItem).mergeSort fun a b => strLe a.1 b.1).filter
          (fun p => keepItem (deepFilterPair p))).map deepFilterPair := by
        rw [List.filter_map]
        rfl
    _ = (((cs.filter keepItem).mergeSort fun a b => strLe a.1 b.1).filter
          keepItem).map deepFilterPair := by
        simp only [keepItem_deepFilterPair]
    _ = (((cs.filter keepItem).filter keepItem).mergeSort
          fun a b => strLe a.1 b.1).map deepFilterPair := by
        rw [filter_mergeSort_comm _ pairLe_strLe_trans pairLe_strLe_total]
    _ = ((cs.filter keepItem).mergeSort fun a b => strLe a.1 b.1).map
          deepFilterPair := by
        rw [List.filter_filter]
        simp
    _ = ((cs.mergeSort fun a b => strLe a.1 b.1).filter keepItem).map
          deepFilterPair := by
        rw [filter_mergeSort_comm _ pairLe_strLe_trans pairLe_strLe_total]
    _ = (listItems cs).map deepFilterPair := by rw [listItems]

theorem dirsOf_deepFilterList (cs : List (List Char × Entry)) :
    dirsOf (deepFilterList cs) = (dirsOf cs).map deepFilterPair := by
  rw [dirsOf, dirsOf, listItems_deepFilterList, List.filter_map]
  congr 1
  apply List.filter_congr
  intro p _
  show (deepFilterPair p).2.isDir = p.2.isDir
  exact isDir_deepFilterEntry p.2

theorem filesOf_deepFilterList (cs : List (List Char × Entry)) :
    filesOf (deepFilterList cs) = (filesOf cs).map deepFilterPair := by
  rw [filesOf, filesOf, listItems_deepFilterList, List.filter_map]
  congr 1
  apply List.filter_congr
  intro p _
  show ((deepFilterPair p).2.isFile && (s2l ".cs").isSuffixOf (deepFilterPair p).1) =
    (p.2.isFile && (s2l ".cs").isSuffixOf p.1)
  have h1 : (deepFilterPair p).2.isFile = p.2.isFile := isFile_deepFilterEntry p.2
  have h2 : (deepFilterPair p).1 = p.1 := rfl
  rw [h1, h2]

theorem renderFiles_map_deepFilter ( pfx : List Char) (nf nd : Nat) :
    ∀ (fs : List (List Char × Entry)) (k : Nat),
      renderFiles pfx nf nd k (fs.map deepFilterPair) = renderFiles pfx nf nd k fs := by
  intro fs
  induction fs with
  | nil => intro k; rfl
  | cons hd rest ih =>
    intro k
    obtain ⟨fn, e⟩ := hd
    show renderFileLine pfx nf nd k fn (deepFilterEntry e) ::
        renderFiles pfx nf nd (k + 1) (rest.map deepFilterPair) =
      renderFileLine pfx nf nd k fn e :: renderFiles pfx nf nd (k + 1) rest
    rw [ih (k + 1)]
    simp only [renderFileLine, extractOf_deepFilterEntry]

theorem listClean_deepFilter (n : Nat) :
    (∀ e : Entry, sizeOf e ≤ n → entryClean (deepFilterEntry e) = true) ∧
    (∀ cs : List (List Char × Entry), sizeOf cs ≤ n →
      listClean (deepFilterList cs) = true) := by
  induction n using Nat.strong_induction_on with
  | _ n ih =>
    constructor
    · intro e hn
      cases e with
      | file r => rw [deepFilterEntry, entryClean]
      | other => rw [deepFilterEntry, entryClean]
      | dir err cs =>
        rw [deepFilterEntry, entryClean]
        have hcs : sizeOf cs < n := by
          simp only [Entry.dir.sizeOf_spec] at hn
          omega
        exact (ih _ hcs).2 cs (le_refl _)
    · intro cs hn
      cases cs with
      | nil => rw [deepFilterList, listClean]
      | cons hd rest =>
        obtain ⟨nm, e⟩ := hd
        have hrest : sizeOf rest < n := by
          simp only [List.cons.sizeOf_spec] at hn
          omega
        have he : sizeOf e < n := by
          simp only [List.cons.sizeOf_spec, Prod.mk.sizeOf_spec] at hn
          omega
        rw [deepFilterList]
        by_cases h : keepItem (nm, e) = true
        · rw [if_pos h, listClean]
          have hk : keepItem (nm, deepFilterEntry e) = true := h
          rw [hk, (ih _ he).1 e (le_refl _), (ih _ hrest).2 rest (le_refl _)]
          rfl
        · rw [if_neg h]
          exact (ih _ hrest).2 rest (le_refl _)

theorem c8_thread (n : Nat) :
    (∀ (listErr : Option (List Char)) (cs : List (List Char × Entry))
        ( pfx : List Char) (out : List (List Char)) (b : Bool),
        2 * sizeOf cs + 1 ≤ n →
        scan_directory listErr cs pfx out b =
          scan_directory listErr (deepFilterList cs) pfx out b) ∧
    (∀ (ds : List (List Char × Entry)) ( pfx : List Char) (out : List (List Char)),
        2 * sizeOf ds ≤ n →
        scanSubdirs (ds.map deepFilterPair) pfx out = scanSubdirs ds pfx out) := by
  induction n using Nat.strong_induction_on with
  | _ n ih =>
    constructor
    · intro listErr cs pfx out b hn
      cases listErr with
      | some e => rw [scan_directory_err, scan_directory_err]
      | none =>
        rw [scan_directory_ok, scan_directory_ok,
          dirsOf_deepFilterList, filesOf_deepFilterList,
          List.length_map, List.length_map, renderFiles_map_deepFilter]
        have hm : 2 * sizeOf (dirsOf cs) < n := by
          have := sizeOf_dirsOf_le cs; omega
        exact ((ih _ hm).2 (dirsOf cs) pfx _ (le_refl _)).symm
    · intro ds pfx out hn
      cases ds with
      | nil => rfl
      | cons hd rest =>
        obtain ⟨dn, e⟩ := hd
        have hrest : 2 * sizeOf rest < n := by
          simp only [List.cons.sizeOf_spec] at hn
          omega
        have hemp : (rest.map deepFilterPair).isEmpty = rest.isEmpty := by
          cases rest <;> rfl
        cases e with
        | dir cErr ccs =>
          have hccs : 2 * sizeOf ccs + 1 < n := by
            simp only [List.cons.sizeOf_spec, Prod.mk.sizeOf_spec,
              Entry.dir.sizeOf_spec] at hn
            omega
          have hdp : deepFilterPair (dn, Entry.dir cErr ccs) =
              (dn, Entry.dir cErr (deepFilterList ccs)) := by
            unfold deepFilterPair
            rw [deepFilterEntry]
          rw [List.map_cons, hdp, scanSubdirs_cons_dir, scanSubdirs_cons_dir, hemp,
            ← (ih _ hccs).1 cErr ccs _ _ _ (le_refl _),
            (ih _ hrest).2 rest pfx _ (le_refl _)]
        | file r =>
          have hdp : deepFilterPair (dn, Entry.file r) = (dn, Entry.file r) := by
            unfold deepFilterPair
            rw [deepFilterEntry]
          rw [List.map_cons, hdp, scanSubdirs_cons_file, scanSubdirs_cons_file, hemp,
            (ih _ hrest).2 rest pfx _ (le_refl _)]
        | other =>
          have hdp : deepFilterPair (dn, Entry.other) = (dn, Entry.other) := by
            unfold deepFilterPair
            rw [deepFilterEntry]
          rw [List.map_cons, hdp, scanSubdirs_cons_other, scanSubdirs_cons_other, hemp,
            (ih _ hrest).2 rest pfx _ (le_refl _)]

/-- C8: entries whose name ends in `.meta` and entries named `.git` never
contribute to the rendered tree, at any depth: the walker's output on any
listing equals its output on the listing with all such entries (and their
subtrees) removed at every depth, and the cleaned tree indeed contains no
such entry at any depth. -/
theorem c8_meta_git_excluded (listErr : Option (List Char))
    (cs : List (List Char × Entry)) ( pfx : List Char)
    (out : List (List Char)) (b : Bool) :
    scan_directory listErr cs pfx out b =
      scan_directory listErr (deepFilterList cs) pfx out b ∧
    listClean (deepFilterList cs) = true :=
  ⟨(c8_thread (2 * sizeOf cs + 1)).1 listErr cs pfx out b (le_refl _),
    (listClean_deepFilter (sizeOf cs)).2 cs (le_refl _)⟩

/-!
## C7: helper lemmas on the search primitives
-/

theorem firstSome_eq_none_of_all {α β : Type} (f : α → Option β) (l : List α)
    (h : ∀ a ∈ l, f a = none) : firstSome f l = none := by
  induction l with
  | nil => rfl
  | cons a as ih =>
    rw [firstSome, h a (List.mem_cons_self a as)]
    exact ih fun x hx => h x (List.mem_cons_of_mem a hx)

theorem firstSome_isSome_of_mem {α β : Type} (f : α → Option β) {l : List α} {a : α}
    (ha : a ∈ l) {b : β} (hb : f a = some b) : (firstSome f l).isSome = true := by
  induction l with
  | nil => cases ha
  | cons x xs ih =>
    rw [firstSome]
    cases hx : f x with
    | some c => rfl
    | none =>
      rcases List.mem_cons.mp ha with rfl | hmem
      · rw [hx] at hb
        cases hb
      · exact ih hmem

theorem firstSome_some_ex {α β : Type} (f : α → Option β) (l : List α) (b : β)
    (h : firstSome f l = some b) : ∃ a ∈ l, f a = some b := by
  induction l with
  | nil => simp [firstSome] at h
  | cons x xs ih =>
    rw [firstSome] at h
    cases hx : f x with
    | some c =>
      rw [hx] at h
      exact ⟨x, List.mem_cons_self x xs, by rw [hx]; exact h⟩
    | none =>
      rw [hx] at h
      obtain ⟨a, ha, hfa⟩ := ih h
      exact ⟨a, List.mem_cons_of_mem x ha, hfa⟩

theorem mem_rangeDown {m i : Nat} : i ∈ rangeDown m ↔ i ≤ m := by
  induction m with
  | zero =>
    simp only [rangeDown, List.mem_singleton]
    omega
  | succ n ih =>
    simp only [rangeDown, List.mem_cons, ih]
    omega

theorem dropPref_append (p s : List Char) : dropPref p (p ++ s) = some s := by
  induction p with
  | nil => rfl
  | cons c cs ih => simp [dropPref, ih]

theorem reSearch_some_of {β : Type} (m : List Char → Option β) (s : List Char)
    (b : β) (h : m s = some b) : reSearch m s = some b := by
  cases s with
  | nil => exact h
  | cons c cs => rw [reSearch, h]

theorem reSearch_append_skip {β : Type} (m : List Char → Option β) (xs s : List Char)
    (h : ∀ n, n < xs.length → m (xs.drop n ++ s) = none) :
    reSearch m (xs ++ s) = reSearch m s := by
  induction xs with
  | nil => rfl
  | cons a as ih =>
    have h0 := h 0 (by simp)
    simp only [List.drop_zero, List.cons_append] at h0
    rw [List.cons_append, reSearch, h0]
    refine ih fun n hn => ?_
    have := h (n + 1) (by simp only [List.length_cons]; omega)
    simpa using this

theorem wsCount_cons (c : Char) (s : List Char) :
    wsCount (c :: s) = if isPySpace c then wsCount s + 1 else 0 := by
  simp only [wsCount, List.takeWhile_cons]
  split
  · simp
  · simp

theorem takeWhile_append_all {p : Char → Bool} {u : List Char} (v : List Char)
    (hu : ∀ c ∈ u, p c = true) :
    (u ++ v).takeWhile p = u ++ v.takeWhile p := by
  induction u with
  | nil => rfl
  | cons a as ih =>
    simp only [List.cons_append, List.takeWhile_cons,
      hu a (List.mem_cons_self a as), ite_true]
    rw [ih fun c hc => hu c (List.mem_cons_of_mem a hc)]

theorem takeWhile_append_stop {p : Char → Bool} {u : List Char} (v : List Char)
    (hu : ∃ c ∈ u, p c = false) :
    (u ++ v).takeWhile p = u.takeWhile p := by
  induction u with
  | nil => obtain ⟨c, hc, _⟩ := hu; cases hc
  | cons a as ih =>
    cases hpa : p a with
    | true =>
      have has : ∃ c ∈ as, p c = false := by
        obtain ⟨c, hc, hcf⟩ := hu
        rcases List.mem_cons.mp hc with rfl | hmem
        · rw [hpa] at hcf; cases hcf
        · exact ⟨c, hmem, hcf⟩
      simp only [List.cons_append, List.takeWhile_cons, hpa, ite_true]
      rw [ih has]
    | false =>
      simp only [List.cons_append, List.takeWhile_cons, hpa]
      rfl

theorem takeWhile_length_lt {p : Char → Bool} {u : List Char}
    (hu : ∃ c ∈ u, p c = false) : (u.takeWhile p).length < u.length := by
  induction u with
  | nil => obtain ⟨c, hc, _⟩ := hu; cases hc
  | cons a as ih =>
    cases hpa : p a with
    | true =>
      have has : ∃ c ∈ as, p c = false := by
        obtain ⟨c, hc, hcf⟩ := hu
        rcases List.mem_cons.mp hc with rfl | hmem
        · rw [hpa] at hcf; cases hcf
        · exact ⟨c, hmem, hcf⟩
      simp only [List.takeWhile_cons, hpa, ite_true, List.length_cons]
      exact Nat.succ_lt_succ (ih has)
    | false =>
      simp only [List.takeWhile_cons, hpa, Bool.false_eq_true, if_false,
        List.length_nil, List.length_cons]
      omega

theorem firstSome_append {α β : Type} (f : α → Option β) (l₁ l₂ : List α) :
    firstSome f (l₁ ++ l₂) =
      match firstSome f l₁ with
      | some b => some b
      | none => firstSome f l₂ := by
  induction l₁ with
  | nil => rfl
  | cons a as ih =>
    rw [List.cons_append, firstSome, firstSome]
    cases h : f a with
    | some b => rfl
    | none => exact ih

theorem firstSome_singleton {α β : Type} (f : α → Option β) (a : α) :
    firstSome f [a] = f a := by
  rw [firstSome]
  cases h : f a with
  | some b => rfl
  | none => rfl

theorem firstSome_range {β : Type} (f : Nat → Option β) (k : Nat) (b : β)
    (hbefore : ∀ j < k, f j = none) (hhit : f k = some b) :
    ∀ n, k < n → firstSome f (List.range n) = some b := by
  intro n
  induction n with
  | zero => omega
  | succ n ihn =>
    intro hk
    rw [List.range_succ, firstSome_append]
    by_cases hcase : k < n
    · rw [ihn hcase]
    · have hkn : k = n := by omega
      subst hkn
      rw [firstSome_eq_none_of_all f (List.range k)
        fun j hj => hbefore j (List.mem_range.mp hj)]
      rw [firstSome_singleton, hhit]

theorem rdropWhile_append_rtakeWhile (p : Char → Bool) (l : List Char) :
    l.rdropWhile p ++ l.rtakeWhile p = l := by
  rw [List.rdropWhile, List.rtakeWhile, ← List.reverse_append,
    List.takeWhile_append_dropWhile, List.reverse_reverse]

/-- The pattern tail `\s*\n\s*/// </summary>` matches after a whitespace-only
gap followed by the closing line. -/
theorem sumTailMatch_true (u post : List Char)
    (hu : ∀ c ∈ u, isPySpace c = true) :
    sumTailMatch (u ++ '\n' :: (sumClose ++ post)) = true := by
  have hdrop : (u ++ '\n' :: (sumClose ++ post)).drop u.length =
      '\n' :: (sumClose ++ post) := List.drop_left u _
  have hf : (fun i3 =>
      match (u ++ '\n' :: (sumClose ++ post)).drop i3 with
      | '\n' :: s8 =>
        firstSome (fun i4 => (dropPref sumClose (s8.drop i4)).map fun _ => ())
          (rangeDown (wsCount s8))
      | _ => none) u.length = some () := by
    simp only [hdrop]
    show firstSome (fun i4 =>
        (dropPref sumClose ((sumClose ++ post).drop i4)).map fun _ => ())
      (rangeDown (wsCount (sumClose ++ post))) = some ()
    have hws0 : wsCount (sumClose ++ post) = 0 := by
      rw [show sumClose ++ post = '/' :: (s2l "// </summary>" ++ post) from rfl,
        wsCount_cons]
      simp +decide
    rw [hws0]
    show firstSome _ [0] = some ()
    rw [firstSome_singleton]
    simp only [List.drop_zero, dropPref_append, Option.map_some']
  unfold sumTailMatch
  have hmem : u.length ∈ rangeDown (wsCount (u ++ '\n' :: (sumClose ++ post))) := by
    rw [mem_rangeDown, wsCount, takeWhile_append_all _ hu, List.length_append]
    omega
  exact firstSome_isSome_of_mem _ hmem hf

/-- The pattern tail fails when the gap before the newline contains a
non-whitespace character. -/
theorem sumTailMatch_false (u post : List Char) (hnl : '\n' ∉ u)
    (hu : ∃ c ∈ u, isPySpace c = false) :
    sumTailMatch (u ++ '\n' :: (sumClose ++ post)) = false := by
  unfold sumTailMatch
  rw [firstSome_eq_none_of_all]
  · rfl
  intro i3 hi3
  rw [mem_rangeDown] at hi3
  have hws : wsCount (u ++ '\n' :: (sumClose ++ post)) = wsCount u := by
    rw [wsCount, wsCount, takeWhile_append_stop _ hu]
  rw [hws] at hi3
  have hlt : i3 < u.length := lt_of_le_of_lt hi3 (takeWhile_length_lt hu)
  have hdrop : (u ++ '\n' :: (sumClose ++ post)).drop i3 =
      u[i3] :: (u.drop (i3 + 1) ++ '\n' :: (sumClose ++ post)) := by
    rw [List.drop_append_of_le_length (le_of_lt hlt),
      List.drop_eq_getElem_cons hlt]
    rfl
  rw [hdrop]
  have hne : u[i3] ≠ '\n' := fun hh => hnl (hh ▸ List.getElem_mem hlt)
  split
  · rename_i s8 heq
    injection heq with h1 h2
    exact absurd h1 hne
  · rfl

/-- The lazy-capture stage, run against the text of a canonical block:
the shortest successful capture is the content line without its trailing
whitespace. -/
theorem sumStage4_block (t post : List Char) (ht : '\n' ∉ t) :
    sumStage4 (t ++ '\n' :: (sumClose ++ post)) =
      some (t.rdropWhile isPySpace) := by
  have hAB : t.rdropWhile isPySpace ++ t.rtakeWhile isPySpace = t :=
    rdropWhile_append_rtakeWhile isPySpace t
  have hAlen : (t.rdropWhile isPySpace).length ≤ t.length :=
    (List.rdropWhile_prefix isPySpace t).length_le
  have hsplit : t ++ '\n' :: (sumClose ++ post) =
      t.rdropWhile isPySpace ++
        (t.rtakeWhile isPySpace ++ '\n' :: (sumClose ++ post)) := by
    rw [← List.append_assoc, hAB]
  unfold sumStage4
  rw [rangeUp]
  apply firstSome_range _ (t.rdropWhile isPySpace).length
  · -- earlier captures fail: the dropped tail still holds a non-space char
    intro j hj
    have hjt : j < t.length := lt_of_lt_of_le hj hAlen
    have hdropj : (t ++ '\n' :: (sumClose ++ post)).drop j =
        t.drop j ++ '\n' :: (sumClose ++ post) :=
      List.drop_append_of_le_length (le_of_lt hjt)
    have hne : t.rdropWhile isPySpace ≠ [] := by
      intro hnil
      rw [hnil] at hj
      simp at hj
    have hlast : isPySpace ((t.rdropWhile isPySpace).getLast hne) = false := by
      have := List.rdropWhile_last_not (p := isPySpace) (l := t) hne
      simpa using this
    have hAdrop : t.drop j =
        (t.rdropWhile isPySpace).drop j ++ t.rtakeWhile isPySpace := by
      conv_lhs => rw [← hAB]
      exact List.drop_append_of_le_length (le_of_lt hj)
    rcases List.eq_nil_or_concat (t.rdropWhile isPySpace) with hnil | ⟨L, c, hLc⟩
    · exact absurd hnil hne
    have hLc' : t.rdropWhile isPySpace = L ++ [c] := by
      rw [hLc, List.concat_eq_append]
    have hc : isPySpace c = false := by
      have : (t.rdropWhile isPySpace).getLast hne = c := by
        rw [List.getLast_congr _ _ hLc']
        exact List.getLast_concat L
      rw [← this]
      exact hlast
    have hjL : j ≤ L.length := by
      rw [hLc', List.length_append] at hj
      simp only [List.length_cons, List.length_nil] at hj
      omega
    have hmemdrop : c ∈ t.drop j := by
      rw [hAdrop, hLc', List.drop_append_of_le_length hjL]
      exact List.mem_append_left _
        (List.mem_append_right _ (List.mem_singleton.mpr rfl))
    have hfail : sumTailMatch (t.drop j ++ '\n' :: (sumClose ++ post)) = false := by
      apply sumTailMatch_false
      · intro hmem
        exact ht (List.mem_of_mem_drop hmem)
      · exact ⟨c, hmemdrop, hc⟩
    rw [hdropj, hfail]
    simp
  · -- the capture of length `|rdropWhile t|` succeeds
    have hdropA : (t ++ '\n' :: (sumClose ++ post)).drop
        (t.rdropWhile isPySpace).length =
        t.rtakeWhile isPySpace ++ '\n' :: (sumClose ++ post) := by
      rw [hsplit, List.drop_left]
    have htake : (t ++ '\n' :: (sumClose ++ post)).take
        (t.rdropWhile isPySpace).length = t.rdropWhile isPySpace := by
      rw [hsplit, List.take_left]
    rw [hdropA, htake]
    have hsucc : sumTailMatch (t.rtakeWhile isPySpace ++ '\n' :: (sumClose ++ post)) =
        true :=
      sumTailMatch_true _ post fun c hc => List.mem_rtakeWhile_imp hc
    rw [hsucc]
    simp
  · rw [List.length_append]
    omega

/-- `\s*` then `/// ` reduces to the lazy-capture stage. -/
theorem sumStage3_block (Y : List Char) :
    sumStage3 (sumLead ++ Y) = sumStage4 Y := by
  unfold sumStage3
  have hws : wsCount (sumLead ++ Y) = 0 := by
    rw [show sumLead ++ Y = '/' :: (s2l "// " ++ Y) from rfl, wsCount_cons]
    simp +decide
  rw [hws]
  show firstSome _ [0] = _
  rw [firstSome_singleton]
  simp only [List.drop_zero, dropPref_append, Option.some_bind]

/-- `\s*` then `\n`: with a single `\n` before a slash, the greedy star must
yield it back, and the match continues after the newline. -/
theorem sumStage2_block (X : List Char) :
    sumStage2 ('\n' :: ('/' :: X)) = sumStage3 ('/' :: X) := by
  unfold sumStage2
  have hws : wsCount ('\n' :: ('/' :: X)) = 1 := by
    rw [wsCount_cons, wsCount_cons]
    simp +decide
  rw [hws]
  show firstSome _ [1, 0] = _
  rw [show ([1, 0] : List Nat) = [1] ++ [0] from rfl, firstSome_append,
    firstSome_singleton, firstSome_singleton]
  simp only [List.drop_succ_cons, List.drop_zero]
  rfl

/-- The summary matcher at the start of a canonical block captures the
content line without its trailing whitespace. -/
theorem matchSummaryAt_block (t post : List Char) (ht : '\n' ∉ t) :
    matchSummaryAt (sumTag ++ '\n' :: (sumLead ++ (t ++ '\n' :: (sumClose ++ post)))) =
      some (t.rdropWhile isPySpace) := by
  unfold matchSummaryAt
  rw [dropPref_append]
  show sumStage2 ('\n' :: (sumLead ++ (t ++ '\n' :: (sumClose ++ post)))) = _
  rw [show sumLead ++ (t ++ '\n' :: (sumClose ++ post)) =
      '/' :: (s2l "// " ++ (t ++ '\n' :: (sumClose ++ post))) from rfl,
    sumStage2_block,
    show '/' :: (s2l "// " ++ (t ++ '\n' :: (sumClose ++ post))) =
      sumLead ++ (t ++ '\n' :: (sumClose ++ post)) from rfl,
    sumStage3_block, sumStage4_block t post ht]

/-- The summary matcher fails wherever the opening tag is not present. -/
theorem matchSummaryAt_none_of_no_tag {s : List Char} (h : ¬ sumTag <+: s) :
    matchSummaryAt s = none := by
  unfold matchSummaryAt
  cases hd : dropPref sumTag s with
  | none => rfl
  | some r => exact absurd ⟨r, (dropPref_some hd).symm⟩ h

/-- If the opening tag does not occur inside `pre` (formally: it is not an
infix of `pre` extended by all but the tag's last character, which also rules
out occurrences straddling the boundary), the matcher fails at every start
position strictly inside `pre`. -/
theorem no_tag_in_pre (pre rest : List Char)
    (hpre : ¬ sumTag <:+: (pre ++ sumTag.dropLast)) :
    ∀ n, n < pre.length → ¬ sumTag <+: (pre.drop n ++ (sumTag ++ rest)) := by
  intro n hn hcontra
  have hulen : 0 < (pre.drop n).length := by
    rw [List.length_drop]
    omega
  have h13 : sumTag.length = 13 := rfl
  have htake := List.prefix_iff_eq_take.mp hcontra
  have h1 : (pre.drop n ++ (sumTag ++ rest)).take sumTag.length =
      ((pre.drop n ++ sumTag) ++ rest).take sumTag.length := by
    rw [List.append_assoc]
  have h2 : ((pre.drop n ++ sumTag) ++ rest).take sumTag.length =
      (pre.drop n ++ sumTag).take sumTag.length :=
    List.take_append_of_le_length (by rw [List.length_append, h13]; omega)
  have h3 : (pre.drop n ++ sumTag).take sumTag.length =
      (pre.drop n ++ sumTag.dropLast).take sumTag.length := by
    have hdl : (pre.drop n ++ sumTag).dropLast = pre.drop n ++ sumTag.dropLast :=
      List.dropLast_append_of_ne_nil _ (by rw [show sumTag = s2l "/// <summary>" from rfl]; decide)
    rw [← hdl, List.dropLast_eq_take, List.take_take,
      Nat.min_eq_left (by rw [List.length_append, h13]; omega)]
  have hpref : sumTag <+: (pre.drop n ++ sumTag.dropLast) := by
    nth_rewrite 1 [htake]
    rw [h1, h2, h3]
    exact List.take_prefix _ _
  obtain ⟨q, hq⟩ := hpref
  exact hpre ⟨pre.take n, q, by
    rw [List.append_assoc, hq, ← List.append_assoc, List.take_append_drop]⟩

/-- The leftmost summary match of a text made of a clean prefix followed by a
canonical summary block is the block's content line, right-trimmed. -/
theorem reSearch_summary_block (pre t post : List Char)
    (hpre : ¬ sumTag <:+: (pre ++ sumTag.dropLast)) (ht : '\n' ∉ t) :
    reSearch matchSummaryAt
        (pre ++ (sumTag ++ '\n' :: (sumLead ++ (t ++ '\n' :: (sumClose ++ post))))) =
      some (t.rdropWhile isPySpace) := by
  rw [reSearch_append_skip]
  · exact reSearch_some_of _ _ _ (matchSummaryAt_block t post ht)
  · intro n hn
    apply matchSummaryAt_none_of_no_tag
    exact no_tag_in_pre pre _ hpre n hn

theorem subSlashes_no_op_aux (n : Nat) :
    ∀ s : List Char, s.length ≤ n → ¬ (s2l "///") <:+: s → subSlashes s = s := by
  induction n with
  | zero =>
    intro s hlen _
    have : s = [] := List.eq_nil_of_length_eq_zero (by omega)
    rw [this, subSlashes]
  | succ n ih =>
    intro s hlen hinf
    cases s with
    | nil => rw [subSlashes]
    | cons c cs =>
      rw [subSlashes]
      split
      · rename_i rest heq
        exact absurd ⟨[], rest, by rw [List.nil_append, ← dropPref_some heq]⟩ hinf
      · have hcs : ¬ (s2l "///") <:+: cs := by
          intro hc
          obtain ⟨u, v, huv⟩ := hc
          exact hinf ⟨c :: u, v, by rw [← huv]; rfl⟩
        rw [ih cs (by simp only [List.length_cons] at hlen; omega) hcs]

/-- `re.sub(r'///\s*', '', s)` leaves a string without `///` unchanged. -/
theorem subSlashes_no_op (s : List Char) (h : ¬ (s2l "///") <:+: s) :
    subSlashes s = s :=
  subSlashes_no_op_aux s.length s (le_refl _) h

/-- `s.replace('\n', ' ')` never contains a newline. -/
theorem replaceNl_not_mem (s : List Char) : '\n' ∉ replaceNl s := by
  unfold replaceNl
  intro hmem
  obtain ⟨c, _, hceq⟩ := List.mem_map.mp hmem
  by_cases h : c = '\n'
  · rw [if_pos h] at hceq
    exact absurd hceq (by decide)
  · rw [if_neg h] at hceq
    exact h hceq

/-- A non-whitespace character survives `str.strip()`. -/
theorem mem_stripPy_of (s : List Char) (c : Char) (hc : c ∈ s)
    (hw : isPySpace c = false) : c ∈ stripPy s := by
  unfold stripPy
  have h1 : c ∈ s.dropWhile isPySpace := by
    have hs := List.takeWhile_append_dropWhile isPySpace s
    rcases List.mem_append.mp (hs ▸ hc) with hmem | hmem
    · exact absurd (List.mem_takeWhile_imp hmem) (by simp [hw])
    · exact hmem
  have h2 := rdropWhile_append_rtakeWhile isPySpace (s.dropWhile isPySpace)
  rcases List.mem_append.mp (h2 ▸ h1) with hmem | hmem
  · exact hmem
  · exact absurd (List.mem_rtakeWhile_imp hmem) (by simp [hw])

/-- `str.strip()` returns an infix of its argument. -/
theorem stripPy_isInfix (s : List Char) : stripPy s <:+: s := by
  unfold stripPy
  exact ((List.rdropWhile_prefix isPySpace (s.dropWhile isPySpace)).isInfix).trans
    (List.dropWhile_suffix isPySpace).isInfix

theorem matchKwAt_some_ne_nil {s nm : List Char} (h : matchKwAt s = some nm) :
    nm ≠ [] := by
  unfold matchKwAt at h
  obtain ⟨kw, _, h2⟩ := firstSome_some_ex _ _ _ h
  cases hd : dropPref kw s with
  | none => rw [hd] at h2; cases h2
  | some s1 =>
    rw [hd] at h2
    simp only [Option.some_bind] at h2
    obtain ⟨i, _, h3⟩ := firstSome_some_ex _ _ _ h2
    split at h3
    · cases h3
    · rename_i hw
      cases h3
      intro hnil
      rw [hnil] at hw
      exact hw rfl

theorem matchPublicAt_some_ne_nil {s nm : List Char}
    (h : matchPublicAt s = some nm) : nm ≠ [] := by
  unfold matchPublicAt at h
  cases hd : dropPref (s2l "public") s with
  | none => rw [hd] at h; cases h
  | some s1 =>
    rw [hd] at h
    simp only [Option.some_bind] at h
    obtain ⟨i, _, h2⟩ := firstSome_some_ex _ _ _ h
    exact matchKwAt_some_ne_nil h2

theorem reSearch_some_ex {β : Type} {m : List Char → Option β} {s : List Char}
    {b : β} (h : reSearch m s = some b) : ∃ s', m s' = some b := by
  induction s with
  | nil => exact ⟨[], h⟩
  | cons c cs ih =>
    rw [reSearch] at h
    cases hm : m (c :: cs) with
    | some r =>
      rw [hm] at h
      cases h
      exact ⟨c :: cs, hm⟩
    | none =>
      rw [hm] at h
      exact ih h

/-- A successful declaration match always captures at least one identifier
character. -/
theorem searchClass_some_ne_nil {pub : Bool} {line nm : List Char}
    (h : searchClass pub line = some nm) : nm ≠ [] := by
  unfold searchClass at h
  cases pub with
  | true =>
    obtain ⟨s', hs'⟩ := reSearch_some_ex h
    exact matchPublicAt_some_ne_nil hs'
  | false =>
    obtain ⟨s', hs'⟩ := reSearch_some_ex h
    exact matchKwAt_some_ne_nil hs'

/-- If some line matches the public pattern, the name loop returns a
non-empty identifier. -/
theorem classNameLoop_ne_nil {ls : List (List Char)}
    (h : ∃ l ∈ ls, searchClass true l ≠ none) : classNameLoop ls ≠ [] := by
  induction ls with
  | nil =>
    obtain ⟨l, hl, _⟩ := h
    cases hl
  | cons line rest ih =>
    rw [classNameLoop]
    cases h1 : searchClass true line with
    | some nm => exact searchClass_some_ne_nil h1
    | none =>
      cases h2 : searchClass false line with
      | some nm => exact searchClass_some_ne_nil h2
      | none =>
        apply ih
        obtain ⟨l, hl, hne⟩ := h
        rcases List.mem_cons.mp hl with rfl | hmem
        · exact absurd h1 hne
        · exact ⟨l, hmem, hne⟩

/-- C7: a file text holding a well-formed summary block — modelled as the
canonical three-line block `/// <summary>`, `/// <text>`, `/// </summary>`,
whose opening tag does not occur earlier, whose text holds no newline, no
`///`, and some non-whitespace character — together with a line matching the
public declaration pattern, yields a non-empty name and a non-empty,
at-most-100-character, newline-free summary. -/
theorem c7_wellformed_block (pre t post content : List Char)
    (hcontent : content =
      pre ++ (sumTag ++ '\n' :: (sumLead ++ (t ++ '\n' :: (sumClose ++ post)))))
    (hpre : ¬ sumTag <:+: (pre ++ sumTag.dropLast))
    (ht1 : '\n' ∉ t)
    (ht2 : ¬ (s2l "///") <:+: t)
    (ht3 : ∃ c ∈ t, isPySpace c = false)
    (hpub : ∃ l ∈ splitNl content, searchClass true l ≠ none) :
    (extract_class_info (.ok content)).1 ≠ [] ∧
    (extract_class_info (.ok content)).2 ≠ [] ∧
    (extract_class_info (.ok content)).2.length ≤ 100 ∧
    '\n' ∉ (extract_class_info (.ok content)).2 := by
  have hname : (extract_class_info (.ok content)).1 = classNameLoop (splitNl content) :=
    rfl
  have hsum : (extract_class_info (.ok content)).2 = extractSummary content := rfl
  have hsearch : reSearch matchSummaryAt content = some (t.rdropWhile isPySpace) := by
    rw [hcontent]
    exact reSearch_summary_block pre t post hpre ht1
  have hsumval : extractSummary content =
      (replaceNl (subSlashes (stripPy (t.rdropWhile isPySpace)))).take 100 := by
    unfold extractSummary
    rw [hsearch]
  have hsubinf : stripPy (t.rdropWhile isPySpace) <:+: t :=
    (stripPy_isInfix _).trans (List.rdropWhile_prefix isPySpace t).isInfix
  have hsub : subSlashes (stripPy (t.rdropWhile isPySpace)) =
      stripPy (t.rdropWhile isPySpace) :=
    subSlashes_no_op _ fun hc => ht2 (hc.trans hsubinf)
  obtain ⟨c, hct, hcw⟩ := ht3
  have hcmem1 : c ∈ t.rdropWhile isPySpace := by
    have h2 := rdropWhile_append_rtakeWhile isPySpace t
    rcases List.mem_append.mp (h2 ▸ hct) with hm | hm
    · exact hm
    · exact absurd (List.mem_rtakeWhile_imp hm) (by simp [hcw])
  have hcmem2 : c ∈ stripPy (t.rdropWhile isPySpace) :=
    mem_stripPy_of _ c hcmem1 hcw
  refine ⟨?_, ?_, ?_, ?_⟩
  · rw [hname]
    exact classNameLoop_ne_nil hpub
  · rw [hsum, hsumval, hsub]
    intro hnil
    rw [List.take_eq_nil_iff] at hnil
    rcases hnil with h100 | hmap
    · cases h100
    · rw [replaceNl, List.map_eq_nil] at hmap
      rw [hmap] at hcmem2
      cases hcmem2
  · rw [hsum, hsumval]
    exact List.length_take_le _ _
  · rw [hsum, hsumval]
    intro hmem
    exact replaceNl_not_mem _ (List.mem_of_mem_take hmem)

/-- A concrete file for C7's witness: a canonical summary block followed by
a public class declaration. -/
def c7content : List Char :=
  s2l "/// <summary>\n/// Does X\n/// </summary>\npublic class Foo"

/-- Witness for C7 at `c7content`. -/
theorem c7_witness :
    c7content =
      [] ++ (sumTag ++ '\n' :: (sumLead ++
        (s2l "Does X" ++ '\n' :: (sumClose ++ s2l "\npublic class Foo")))) ∧
    (∃ c ∈ s2l "Does X", isPySpace c = false) ∧
    (extract_class_info (.ok c7content)).1 ≠ [] ∧
    (extract_class_info (.ok c7content)).2 ≠ [] ∧
    (extract_class_info (.ok c7content)).2.length ≤ 100 ∧
    '\n' ∉ (extract_class_info (.ok c7content)).2 := by
  refine ⟨by decide, by decide, ?_⟩
  have h := c7_wellformed_block [] (s2l "Does X") (s2l "\npublic class Foo")
    c7content (by decide) (by decide) (by decide) (by decide) (by decide)
    (by decide)
  exact h

end TreeGen
